import Mathlib

/-!
Verification of the pixel streaming protocol of the LED-matrix repository:
the serial frame receiver (`x1_serial_rgb_client/src/main.cpp`,
`j8_pixel_art/firmware/src/main.cpp`), the chunked UDP frame receiver
(`x2_wirelss_rgb_client/src/main.cpp`), and the shared RGB565 pixel decode.

Embedding conventions:
- C byte buffers on the wire become `List Nat`; each entry models one byte.
- The static arrays of the UDP receiver (`buf`, `receivedChunks`) become
  total functions from the index to the stored value.  The C code indexes
  them without any bounds check, so the embedding keeps every store at
  every index; indices at or beyond the real array sizes (`BUFFER_SIZE`
  bytes resp. 8 flags) correspond to out-of-bounds accesses of the C code.
- Machine-integer truncation is explicit with `% 256` at the points where
  the C code stores a value into a `uint8_t` object.
- A completed frame (the code path that decodes the wire buffer into the
  back buffer and swaps buffers) is modelled by appending the decoded
  pixel list to the `frames` field; the display library calls themselves
  are outside the scope of the model.
-/

namespace PixelStream

/-- Number of pixels of the 32x32 matrix: `TOTAL_WIDTH * TOTAL_HEIGHT`. -/
def NUM_LEDS : Nat := 32 * 32

/-- Size in bytes of one encoded frame:
`NUM_LEDS * (INCOMING_COLOR_DEPTH / 8)` with `INCOMING_COLOR_DEPTH = 16`. -/
def BUFFER_SIZE : Nat := NUM_LEDS * 2

/-- Payload capacity of one UDP chunk (`x2_wirelss_rgb_client`). -/
def CHUNK_SIZE : Nat := 1024

/-- Two header bytes of a UDP datagram: `[currentChunk, totalChunks]`. -/
def HEADER_SIZE : Nat := 2

/-- One pixel of the display back buffer: three 8-bit channels, as in the
`rgb24` type of the display library. -/
structure rgb24 where
  red : Nat
  green : Nat
  blue : Nat
deriving DecidableEq, Repr

/-- Helper function `convert16to24bit` of `x2_wirelss_rgb_client/src/main.cpp` (the same
computation is inlined in the serial clients): assemble the big-endian
RGB565 word from the two bytes and expand the channels by left shifts.
The `% 256` models the `uint8_t` type of the two parameters. -/
def convert16to24bit (high low : Nat) : rgb24 :=
  let rgb16 := ((high % 256) <<< 8) ||| (low % 256)
  { red := ((rgb16 >>> 11) &&& 0x1F) <<< 3
    green := ((rgb16 >>> 5) &&& 0x3F) <<< 2
    blue := (rgb16 &&& 0x1F) <<< 3 }

/-- Decode of a fully assembled wire buffer held as a byte list (serial
variant): pixel `i` comes from payload bytes `2*i` (high) and `2*i+1`
(low), in row-major wire order. -/
def decodePayload (payload : List Nat) : List rgb24 :=
  (List.range NUM_LEDS).map fun i =>
    convert16to24bit (payload.getD (2 * i) 0) (payload.getD (2 * i + 1) 0)

/-- Decode of the wire buffer held as an index-to-byte function (UDP
variant): the loop `for i < NUM_LEDS: convert16to24bit(buf[2i], buf[2i+1])`. -/
def decodeFrame (buf : Nat → Nat) : List rgb24 :=
  (List.range NUM_LEDS).map fun i => convert16to24bit (buf (2 * i)) (buf (2 * i + 1))

/-- Serial receiver of `x1_serial_rgb_client` / `j8_pixel_art` run over a
byte stream: each loop iteration reads one byte; on the marker `0x2A` it
reads up to `BUFFER_SIZE` payload bytes (`Serial.readBytes` returns the
number of bytes actually obtained, here `min remaining BUFFER_SIZE` since
the stream delivers no further byte once exhausted); only a full read
decodes and swaps.  The result is the list of decoded frames in order. -/
def serialFrames : List Nat → List (List rgb24)
  | [] => []
  | chr :: rest =>
    if chr = 0x2A then
      let count := min rest.length BUFFER_SIZE
      if count = BUFFER_SIZE then
        decodePayload (rest.take BUFFER_SIZE) :: serialFrames (rest.drop BUFFER_SIZE)
      else
        serialFrames (rest.drop count)
    else
      serialFrames rest
termination_by l => l.length
decreasing_by
  all_goals simp [List.length_drop]
  all_goals omega

/-- A run over bursts of bytes separated by gaps longer than the serial
read timeout: the receiver keeps no state across loop iterations, a read
at an exhausted burst times out, and the next burst starts afresh, so the
run is the concatenation of the per-burst runs. -/
def serialRunBursts (bursts : List (List Nat)) : List (List rgb24) :=
  (bursts.map serialFrames).flatten

theorem serialFrames_nil : serialFrames [] = [] := by
  simp [serialFrames]

theorem serialFrames_skip (b : Nat) (rest : List Nat) (hb : b ≠ 0x2A) :
    serialFrames (b :: rest) = serialFrames rest := by
  rw [serialFrames]
  simp [hb]

theorem serialFrames_marker_full (rest : List Nat) (h : BUFFER_SIZE ≤ rest.length) :
    serialFrames (0x2A :: rest) =
      decodePayload (rest.take BUFFER_SIZE) :: serialFrames (rest.drop BUFFER_SIZE) := by
  rw [serialFrames]
  simp [Nat.min_eq_right h]

theorem serialFrames_marker_short (rest : List Nat) (h : rest.length < BUFFER_SIZE) :
    serialFrames (0x2A :: rest) = [] := by
  rw [serialFrames]
  simp [Nat.min_eq_left (Nat.le_of_lt h), Nat.ne_of_lt h, List.drop_length, serialFrames_nil]

/-- C3: feeding the marker byte `0x2A` followed by exactly `BUFFER_SIZE`
payload bytes makes the serial receiver decode exactly one frame, whose
pixel `i` (for every `i < NUM_LEDS`) is the RGB565 decode of payload
bytes `2*i` and `2*i+1`, and signal frame ready exactly once. -/
theorem serial_full_frame_decodes_once (payload : List Nat)
    (h : payload.length = BUFFER_SIZE) :
    serialFrames (0x2A :: payload) =
      [(List.range NUM_LEDS).map fun i =>
        convert16to24bit (payload.getD (2 * i) 0) (payload.getD (2 * i + 1) 0)] := by
  rw [serialFrames_marker_full payload (le_of_eq h.symm)]
  rw [List.take_of_length_le (le_of_eq h), List.drop_eq_nil_of_le (le_of_eq h)]
  rw [serialFrames_nil, decodePayload]

theorem serial_full_frame_decodes_once_witness :
    (List.replicate BUFFER_SIZE 0xFF).length = BUFFER_SIZE ∧
    serialFrames (0x2A :: List.replicate BUFFER_SIZE 0xFF) =
      [(List.range NUM_LEDS).map fun i =>
        convert16to24bit ((List.replicate BUFFER_SIZE 0xFF).getD (2 * i) 0)
          ((List.replicate BUFFER_SIZE 0xFF).getD (2 * i + 1) 0)] :=
  ⟨List.length_replicate .., serial_full_frame_decodes_once _ (List.length_replicate ..)⟩

/-- C4: the marker followed by fewer than `BUFFER_SIZE` bytes (a short
read before the timeout) decodes no frame — the receiver discards the
incomplete data and returns to waiting for a marker — and a later burst with
a fresh marker and a full payload is decoded normally. -/
theorem serial_short_read_drops_and_recovers (shortP full : List Nat)
    (hs : shortP.length < BUFFER_SIZE) (hf : full.length = BUFFER_SIZE) :
    serialFrames (0x2A :: shortP) = [] ∧
    serialRunBursts [0x2A :: shortP, 0x2A :: full] = [decodePayload full] := by
  refine ⟨serialFrames_marker_short shortP hs, ?_⟩
  rw [serialRunBursts]
  rw [List.map_cons, List.map_cons, List.map_nil]
  rw [serialFrames_marker_short shortP hs, serialFrames_marker_full full (le_of_eq hf.symm)]
  rw [List.take_of_length_le (le_of_eq hf), List.drop_eq_nil_of_le (le_of_eq hf)]
  simp [serialFrames_nil]

theorem serial_short_read_drops_and_recovers_witness :
    ([1, 2, 3] : List Nat).length < BUFFER_SIZE ∧
    (List.replicate BUFFER_SIZE 0).length = BUFFER_SIZE ∧
    (serialFrames (0x2A :: [1, 2, 3]) = [] ∧
      serialRunBursts [0x2A :: [1, 2, 3], 0x2A :: List.replicate BUFFER_SIZE 0] =
        [decodePayload (List.replicate BUFFER_SIZE 0)]) :=
  ⟨by decide, List.length_replicate ..,
    serial_short_read_drops_and_recovers [1, 2, 3] _ (by decide) (List.length_replicate ..)⟩

/-- C7: a garbage byte stream containing no marker byte `0x2A`, prepended
to any input stream, leaves the sequence of decoded frames unchanged. -/
theorem serial_garbage_invariance (g s : List Nat) (hg : ∀ b ∈ g, b ≠ 0x2A) :
    serialFrames (g ++ s) = serialFrames s := by
  induction g with
  | nil => rfl
  | cons b g ih =>
    rw [List.cons_append, serialFrames_skip b _ (hg b (by simp))]
    exact ih fun x hx => hg x (by simp [hx])

theorem serial_garbage_invariance_witness :
    (∀ b ∈ ([7, 0, 255] : List Nat), b ≠ 0x2A) ∧
    serialFrames ([7, 0, 255] ++ [9]) = serialFrames [9] :=
  ⟨by decide, serial_garbage_invariance [7, 0, 255] [9] (by decide)⟩

/-- C2: for byte values `H` and `L`, the decode computes
`value = (H <<< 8) ||| L` and expands the three channels by masking and
left-shifting (lossy expansion, low bits zero); the concrete words
`0xF800`, `0x07E0`, `0x001F`, `0xFFFF` decode to `(248,0,0)`, `(0,252,0)`,
`(0,0,248)`, `(248,252,248)` respectively. -/
theorem rgb565_decode_formula (H L : Nat) (hH : H < 256) (hL : L < 256) :
    (convert16to24bit H L).red = ((((H <<< 8) ||| L) >>> 11) &&& 0x1F) <<< 3 ∧
    (convert16to24bit H L).green = ((((H <<< 8) ||| L) >>> 5) &&& 0x3F) <<< 2 ∧
    (convert16to24bit H L).blue = (((H <<< 8) ||| L) &&& 0x1F) <<< 3 ∧
    convert16to24bit 0xF8 0x00 = ⟨248, 0, 0⟩ ∧
    convert16to24bit 0x07 0xE0 = ⟨0, 252, 0⟩ ∧
    convert16to24bit 0x00 0x1F = ⟨0, 0, 248⟩ ∧
    convert16to24bit 0xFF 0xFF = ⟨248, 252, 248⟩ := by
  refine ⟨?_, ?_, ?_, by decide, by decide, by decide, by decide⟩ <;>
    simp [convert16to24bit, Nat.mod_eq_of_lt hH, Nat.mod_eq_of_lt hL]

theorem rgb565_decode_formula_witness :
    0xF8 < 256 ∧ 0x00 < 256 ∧
    ((convert16to24bit 0xF8 0x00).red = ((((0xF8 <<< 8) ||| 0x00) >>> 11) &&& 0x1F) <<< 3 ∧
      (convert16to24bit 0xF8 0x00).green = ((((0xF8 <<< 8) ||| 0x00) >>> 5) &&& 0x3F) <<< 2 ∧
      (convert16to24bit 0xF8 0x00).blue = (((0xF8 <<< 8) ||| 0x00) &&& 0x1F) <<< 3 ∧
      convert16to24bit 0xF8 0x00 = ⟨248, 0, 0⟩ ∧
      convert16to24bit 0x07 0xE0 = ⟨0, 252, 0⟩ ∧
      convert16to24bit 0x00 0x1F = ⟨0, 0, 248⟩ ∧
      convert16to24bit 0xFF 0xFF = ⟨248, 252, 248⟩) :=
  ⟨by decide, by decide, rgb565_decode_formula 0xF8 0x00 (by decide) (by decide)⟩

/-- Mutable state of the UDP receiver (`x2_wirelss_rgb_client`): the
incoming wire buffer `buf` (a `BUFFER_SIZE`-byte array in C, held here as
a total index-to-byte function so that the unchecked stores of the C code
are representable at every index), the chunk completion flags
`receivedChunks` (an 8-entry array in C, likewise total), and the list of
frames decoded and swapped to the display so far. -/
structure UdpState where
  buf : Nat → Nat
  receivedChunks : Nat → Bool
  frames : List (List rgb24)

/-- Store of one chunk:
`udp.read(&buf[chunkIndex * CHUNK_SIZE], dataSize)` copies the payload
bytes to offsets `chunkIndex * CHUNK_SIZE, ...`; every other offset keeps
its old value.  `% 256` models the `uint8_t` cells. -/
def writeChunk (buf : Nat → Nat) (chunkIndex : Nat) (payload : List Nat) : Nat → Nat :=
  fun a =>
    if chunkIndex * CHUNK_SIZE ≤ a ∧ a < chunkIndex * CHUNK_SIZE + payload.length then
      payload.getD (a - chunkIndex * CHUNK_SIZE) 0 % 256
    else buf a

/-- One `loop` iteration of `x2_wirelss_rgb_client` on one received
datagram, given as its byte list.  An empty packet means `parsePacket`
returned 0.  Otherwise the two header bytes are read into `uint8_t`
locals; if `dataSize = packetSize - HEADER_SIZE` is not positive nothing
further happens; otherwise the payload is copied to the chunk offset,
the chunk is marked, and if every index below `totalChunks` is marked the
flags are cleared (`memset` over the 8-entry array), the wire buffer is
decoded and the frame is swapped to the display. -/
def udpStep (s : UdpState) (packet : List Nat) : UdpState :=
  if packet.length = 0 then s
  else
    let chunkIndex := packet.getD 0 0 % 256
    let totalChunks := packet.getD 1 0 % 256
    if packet.length ≤ HEADER_SIZE then s
    else
      let payload := packet.drop HEADER_SIZE
      let buf1 := writeChunk s.buf chunkIndex payload
      let received1 : Nat → Bool := fun i => if i = chunkIndex then true else s.receivedChunks i
      if (List.range totalChunks).all received1 then
        { buf := buf1
          receivedChunks := fun i => if i < 8 then false else received1 i
          frames := s.frames ++ [decodeFrame buf1] }
      else
        { buf := buf1, receivedChunks := received1, frames := s.frames }

/-- A run of the UDP receiver over a sequence of datagrams. -/
def udpRun (s : UdpState) (packets : List (List Nat)) : UdpState :=
  packets.foldl udpStep s

/-- Receiver state right after `setup`: `buf` and `receivedChunks` are
zero-initialised statics, and no frame has been displayed. -/
def initState : UdpState :=
  { buf := fun _ => 0, receivedChunks := fun _ => false, frames := [] }

/-- C10: a datagram of at most `HEADER_SIZE` bytes (header-only or
truncated, so the computed payload size is not positive) leaves the whole
receiver state unchanged — no buffer byte, no completion flag, no frame. -/
theorem udp_short_packet_noop (s : UdpState) (packet : List Nat)
    (h : packet.length ≤ HEADER_SIZE) :
    udpStep s packet = s := by
  by_cases h0 : packet.length = 0 <;> simp [udpStep, h0, h]

theorem udp_short_packet_noop_witness :
    ([3, 1] : List Nat).length ≤ HEADER_SIZE ∧ udpStep initState [3, 1] = initState :=
  ⟨by decide, udp_short_packet_noop initState [3, 1] (by decide)⟩

/-- Characterisation of one iteration on a datagram whose payload size is
positive, by unfolding the two early-exit tests. -/
theorem udpStep_long (s : UdpState) (packet : List Nat) (h : HEADER_SIZE < packet.length) :
    udpStep s packet =
      (let chunkIndex := packet.getD 0 0 % 256
       let buf1 := writeChunk s.buf chunkIndex (packet.drop HEADER_SIZE)
       let received1 : Nat → Bool := fun i => if i = chunkIndex then true else s.receivedChunks i
       if (List.range (packet.getD 1 0 % 256)).all received1 then
         { buf := buf1
           receivedChunks := fun i => if i < 8 then false else received1 i
           frames := s.frames ++ [decodeFrame buf1] }
       else
         { buf := buf1, receivedChunks := received1, frames := s.frames }) := by
  have h0 : ¬ packet.length = 0 := by omega
  have h2 : ¬ packet.length ≤ HEADER_SIZE := by omega
  simp only [udpStep, h0, h2, if_false]

/-- Both branches of a long-packet iteration write the same wire buffer. -/
theorem udpStep_buf (s : UdpState) (packet : List Nat) (h : HEADER_SIZE < packet.length) :
    (udpStep s packet).buf =
      writeChunk s.buf (packet.getD 0 0 % 256) (packet.drop HEADER_SIZE) := by
  rw [udpStep_long s packet h]
  dsimp only
  split <;> rfl

/-- C9: a datagram longer than the header whose declared `totalChunks` is 0
makes the completeness loop pass vacuously, so that single datagram
decodes the wire buffer, swaps a frame out, and clears the completion
flags, regardless of which chunks actually arrived. -/
theorem udp_zero_totalChunks_completes (s : UdpState) (packet : List Nat)
    (htc : packet.getD 1 0 % 256 = 0) (hlen : HEADER_SIZE < packet.length) :
    (udpStep s packet).frames =
      s.frames ++
        [decodeFrame (writeChunk s.buf (packet.getD 0 0 % 256) (packet.drop HEADER_SIZE))] ∧
    ∀ i, i < 8 → (udpStep s packet).receivedChunks i = false := by
  rw [udpStep_long s packet hlen]
  dsimp only
  rw [htc]
  simp only [List.range_zero, List.all_nil, if_true]
  exact ⟨by trivial, fun i hi => by simp [hi]⟩

theorem udp_zero_totalChunks_completes_witness :
    ([0, 0, 5] : List Nat).getD 1 0 % 256 = 0 ∧ HEADER_SIZE < ([0, 0, 5] : List Nat).length ∧
    ((udpStep initState [0, 0, 5]).frames =
        initState.frames ++
          [decodeFrame (writeChunk initState.buf (([0, 0, 5] : List Nat).getD 0 0 % 256)
            (([0, 0, 5] : List Nat).drop HEADER_SIZE))] ∧
      ∀ i, i < 8 → (udpStep initState [0, 0, 5]).receivedChunks i = false) :=
  ⟨by decide, by decide, udp_zero_totalChunks_completes initState [0, 0, 5] (by decide) (by decide)⟩

/-- C8: whenever an iteration signals frame ready (the frame list grew),
the completion flags are cleared to entirely empty — all 8 entries of the
array are unset in the post-state — before any further datagram is seen. -/
theorem udp_complete_clears_flags (s : UdpState) (packet : List Nat)
    (hsig : (udpStep s packet).frames ≠ s.frames) :
    ∀ i, i < 8 → (udpStep s packet).receivedChunks i = false := by
  intro i hi
  by_cases h0 : packet.length = 0
  · simp [udpStep, h0] at hsig
  by_cases h2 : packet.length ≤ HEADER_SIZE
  · simp [udpStep, h0, h2] at hsig
  rw [udpStep_long s packet (by omega)] at hsig ⊢
  dsimp only at hsig ⊢
  by_cases hc : ((List.range (packet.getD 1 0 % 256)).all
      fun j => if j = packet.getD 0 0 % 256 then true else s.receivedChunks j) = true
  · simp only [hc, if_true]
    simp [hi]
  · simp only [hc, if_false] at hsig
    exact absurd rfl hsig

theorem udp_complete_clears_flags_witness :
    (udpStep initState [0, 0, 7]).frames ≠ initState.frames ∧
    (udpStep initState [0, 0, 7]).receivedChunks 3 = false :=
  ⟨by simp [udpStep, initState, HEADER_SIZE], udp_complete_clears_flags initState [0, 0, 7]
    (by simp [udpStep, initState, HEADER_SIZE]) 3 (by decide)⟩

/-- C6: two datagrams carrying the same in-range chunk index, processed in
order, leave the second payload in the wire buffer region of that chunk —
the later copy overwrites the earlier one byte for byte. -/
theorem udp_duplicate_chunk_last_write_wins (s : UdpState) (ci tc1 tc2 : Nat)
    (p1 p2 : List Nat) (hci : ci < 8) (a : Nat) (ha : a < p2.length) :
    (udpStep (udpStep s (ci :: tc1 :: p1)) (ci :: tc2 :: p2)).buf (ci * CHUNK_SIZE + a) =
      p2.getD a 0 % 256 := by
  have hlen : HEADER_SIZE < (ci :: tc2 :: p2).length := by
    simp only [HEADER_SIZE, List.length_cons]
    omega
  rw [udpStep_buf _ _ hlen]
  have hgd : (ci :: tc2 :: p2).getD 0 0 % 256 = ci := by
    simp [Nat.mod_eq_of_lt (show ci < 256 by omega)]
  rw [hgd]
  show (if ci * CHUNK_SIZE ≤ ci * CHUNK_SIZE + a ∧
      ci * CHUNK_SIZE + a < ci * CHUNK_SIZE + ((ci :: tc2 :: p2).drop HEADER_SIZE).length then
      ((ci :: tc2 :: p2).drop HEADER_SIZE).getD (ci * CHUNK_SIZE + a - ci * CHUNK_SIZE) 0 % 256
    else _) = p2.getD a 0 % 256
  have hdrop : (ci :: tc2 :: p2).drop HEADER_SIZE = p2 := rfl
  rw [hdrop, if_pos ⟨Nat.le_add_right .., by omega⟩, Nat.add_sub_cancel_left]

theorem udp_duplicate_chunk_last_write_wins_witness :
    0 < 8 ∧ 0 < ([9] : List Nat).length ∧
    (udpStep (udpStep initState (0 :: 2 :: [1])) (0 :: 2 :: [9])).buf (0 * CHUNK_SIZE + 0) =
      ([9] : List Nat).getD 0 0 % 256 :=
  ⟨by decide, by decide,
    udp_duplicate_chunk_last_write_wins initState 0 2 2 [1] [9] (by decide) 0 (by decide)⟩

/-- C1 is refuted by the code: the receiver performs no range check on
`chunkIndex` at all.  From the reset state, the datagram
`[chunkIndex = 1, totalChunks = 1, payload = [99]]` — out of range since
`chunkIndex >= totalChunks` — is still recorded: the wire buffer receives
the payload byte at offset `1 * CHUNK_SIZE` and flag 1 of the completion
set is marked.  Likewise `[8, 9, [7]]` marks flag 8, an index past the
8-entry C array `receivedChunks` (an out-of-bounds store in C). -/
theorem udp_out_of_range_chunk_recorded :
    (udpStep initState [1, 1, 99]).receivedChunks 1 = true ∧
    (udpStep initState [1, 1, 99]).buf (1 * CHUNK_SIZE) = 99 ∧
    (udpStep initState [8, 9, 7]).receivedChunks 8 = true := by
  refine ⟨?_, ?_, ?_⟩ <;> decide

/-- Datagram carrying chunk `i` of a frame of `n` chunks with payload `p i`:
two header bytes followed by the payload. -/
def chunkPkt (n : Nat) (p : Nat → List Nat) (i : Nat) : List Nat := i :: n :: p i

/-- Cumulative effect on the wire buffer of storing the chunks whose
indices are listed in `l`, in order. -/
def bufWrites (b : Nat → Nat) (p : Nat → List Nat) (l : List Nat) : Nat → Nat :=
  l.foldl (fun buf i => writeChunk buf i (p i)) b

theorem bufWrites_append (b : Nat → Nat) (p : Nat → List Nat) (l1 l2 : List Nat) :
    bufWrites b p (l1 ++ l2) = bufWrites (bufWrites b p l1) p l2 :=
  List.foldl_append ..

theorem udpRun_append (s : UdpState) (l1 l2 : List (List Nat)) :
    udpRun s (l1 ++ l2) = udpRun (udpRun s l1) l2 :=
  List.foldl_append ..

/-- One iteration on a chunk datagram with byte-valued header fields and a
nonempty payload, fully characterised. -/
theorem udpStep_chunkPkt (s : UdpState) (n : Nat) (p : Nat → List Nat) (i : Nat)
    (hi : i < 256) (hn : n < 256) (hp : p i ≠ []) :
    udpStep s (chunkPkt n p i) =
      (let buf1 := writeChunk s.buf i (p i)
       let received1 : Nat → Bool := fun j => if j = i then true else s.receivedChunks j
       if (List.range n).all received1 then
         { buf := buf1
           receivedChunks := fun j => if j < 8 then false else received1 j
           frames := s.frames ++ [decodeFrame buf1] }
       else
         { buf := buf1, receivedChunks := received1, frames := s.frames }) := by
  have hple : 0 < (p i).length := List.length_pos.mpr hp
  have hlen : HEADER_SIZE < (chunkPkt n p i).length := by
    simp only [chunkPkt, List.length_cons, HEADER_SIZE]
    omega
  rw [udpStep_long _ _ hlen]
  simp only [chunkPkt, List.getD_cons_zero, List.getD_cons_succ,
    Nat.mod_eq_of_lt hi, Nat.mod_eq_of_lt hn,
    show List.drop HEADER_SIZE (i :: n :: p i) = p i from rfl]

/-- A run over chunk datagrams that never covers all of `[0, n)` at any
point: every delivered chunk is written and marked, and no frame is
signalled. -/
theorem udpRun_incomplete (n : Nat) (p : Nat → List Nat) (hn : n < 256)
    (hp : ∀ i, i < n → p i ≠ []) (s0 : UdpState)
    (hs : ∀ i, s0.receivedChunks i = false) (t : List Nat) :
    (∀ i ∈ t, i < n) → (∃ j, j < n ∧ j ∉ t) →
    udpRun s0 (t.map (chunkPkt n p)) =
      { buf := bufWrites s0.buf p t
        receivedChunks := fun j => decide (j ∈ t)
        frames := s0.frames } := by
  induction t using List.reverseRecOn with
  | nil =>
    intro _ _
    simp only [List.map_nil, udpRun, List.foldl_nil, bufWrites]
    obtain ⟨b0, r0, f0⟩ := s0
    simp only [UdpState.mk.injEq, true_and, and_true]
    funext j
    simpa using (hs j).symm
  | append_singleton t c ih =>
    intro hmem hex
    have hc : c < n := hmem c (by simp)
    have hmem' : ∀ i ∈ t, i < n := fun i hi => hmem i (by simp [hi])
    obtain ⟨j, hj, hjtc⟩ := hex
    have hjt : j ∉ t := fun h => hjtc (by simp [h])
    have hjc : j ≠ c := fun h => hjtc (by simp [h])
    rw [List.map_append, udpRun_append, ih hmem' ⟨j, hj, hjt⟩]
    have hone : udpRun
        { buf := bufWrites s0.buf p t
          receivedChunks := fun j => decide (j ∈ t)
          frames := s0.frames } ([c].map (chunkPkt n p)) =
        udpStep
          { buf := bufWrites s0.buf p t
            receivedChunks := fun j => decide (j ∈ t)
            frames := s0.frames } (chunkPkt n p c) := rfl
    rw [hone, udpStep_chunkPkt _ n p c (by omega) hn (hp c hc)]
    dsimp only
    have hfail : ((List.range n).all fun k =>
        if k = c then true else decide (k ∈ t)) = false := by
      rw [List.all_eq_false]
      exact ⟨j, List.mem_range.mpr hj, by simp [hjc, hjt]⟩
    rw [hfail]
    simp only [Bool.false_eq_true, if_false, UdpState.mk.injEq]
    refine ⟨(bufWrites_append s0.buf p t [c]).symm, ?_, trivial⟩
    funext k
    by_cases hkc : k = c <;> simp [hkc, List.mem_append]

/-- A run whose final datagram first covers all of `[0, n)`: every chunk
is written, exactly one frame — the decode of the fully written wire
buffer — is signalled at the final datagram, and the flags are cleared. -/
theorem udpRun_completes_last (n : Nat) (p : Nat → List Nat) (hn : n < 256)
    (hp : ∀ i, i < n → p i ≠ []) (s0 : UdpState)
    (hs : ∀ i, s0.receivedChunks i = false) (t : List Nat) (c : Nat)
    (hmem : ∀ i ∈ t, i < n) (hc : c < n)
    (hex : ∃ j, j < n ∧ j ∉ t)
    (hcov : ∀ j, j < n → j ∈ t ++ [c]) :
    udpRun s0 ((t ++ [c]).map (chunkPkt n p)) =
      { buf := bufWrites s0.buf p (t ++ [c])
        receivedChunks := fun j => if j < 8 then false
          else if j = c then true else decide (j ∈ t)
        frames := s0.frames ++ [decodeFrame (bufWrites s0.buf p (t ++ [c]))] } := by
  rw [List.map_append, udpRun_append,
    udpRun_incomplete n p hn hp s0 hs t hmem hex]
  have hone : udpRun
      { buf := bufWrites s0.buf p t
        receivedChunks := fun j => decide (j ∈ t)
        frames := s0.frames } ([c].map (chunkPkt n p)) =
      udpStep
        { buf := bufWrites s0.buf p t
          receivedChunks := fun j => decide (j ∈ t)
          frames := s0.frames } (chunkPkt n p c) := rfl
  rw [hone, udpStep_chunkPkt _ n p c (by omega) hn (hp c hc)]
  dsimp only
  have hdone : ((List.range n).all fun k =>
      if k = c then true else decide (k ∈ t)) = true := by
    rw [List.all_eq_true]
    intro k hk
    rcases (List.mem_append.mp (hcov k (List.mem_range.mp hk))) with hkt | hkc
    · by_cases hkc2 : k = c <;> simp [hkc2, hkt]
    · simp [List.mem_singleton.mp hkc]
  rw [hdone]
  simp only [if_true, UdpState.mk.injEq]
  exact ⟨(bufWrites_append s0.buf p t [c]).symm, trivial,
    by rw [bufWrites_append s0.buf p t [c]]; rfl⟩

/-- Stores of two distinct chunks whose payloads fit in `CHUNK_SIZE`
touch disjoint offset ranges, so they commute. -/
theorem writeChunk_comm (b : Nat → Nat) (i j : Nat) (pl ql : List Nat)
    (hi : pl.length ≤ CHUNK_SIZE) (hj : ql.length ≤ CHUNK_SIZE) (hij : i ≠ j) :
    writeChunk (writeChunk b i pl) j ql = writeChunk (writeChunk b j ql) i pl := by
  funext a
  simp only [writeChunk, CHUNK_SIZE] at hi hj ⊢
  split_ifs <;> first | rfl | (exfalso; omega)

/-- Storing a list of distinct chunks in reverse order writes the same
wire buffer. -/
theorem bufWrites_reverse (b : Nat → Nat) (p : Nat → List Nat) (l : List Nat)
    (hlen : ∀ i ∈ l, (p i).length ≤ CHUNK_SIZE) :
    bufWrites b p l.reverse = bufWrites b p l := by
  unfold bufWrites
  refine List.Perm.foldl_eq' (List.reverse_perm l) ?_ b
  intro x hx y hy z
  rcases eq_or_ne x y with rfl | hxy
  · rfl
  · exact writeChunk_comm z x y (p x) (p y)
      (hlen x (by simpa using hx)) (hlen y (by simpa using hy)) hxy

/-- C5: delivering the `n` chunks of a frame in reverse index order
yields the same decoded frame, with exactly one frame-ready signal, as
delivering them in forward order, starting from any state with an empty
completion set. -/
theorem udp_chunk_order_independence (n : Nat) (p : Nat → List Nat) (s0 : UdpState)
    (hn : 0 < n) (hn8 : n ≤ 8)
    (hp : ∀ i, i < n → 0 < (p i).length ∧ (p i).length ≤ CHUNK_SIZE)
    (hs : ∀ i, s0.receivedChunks i = false) :
    (udpRun s0 (((List.range n).reverse).map (chunkPkt n p))).frames =
      (udpRun s0 ((List.range n).map (chunkPkt n p))).frames ∧
    (udpRun s0 ((List.range n).map (chunkPkt n p))).frames =
      s0.frames ++ [decodeFrame (bufWrites s0.buf p (List.range n))] := by
  obtain ⟨m, rfl⟩ : ∃ m, n = m + 1 := ⟨n - 1, by omega⟩
  have hn' : m + 1 < 256 := by omega
  have hp' : ∀ i, i < m + 1 → p i ≠ [] :=
    fun i hi => List.length_pos.mp (hp i hi).1
  have hfwd : udpRun s0 ((List.range (m + 1)).map (chunkPkt (m + 1) p)) =
      { buf := bufWrites s0.buf p (List.range m ++ [m])
        receivedChunks := fun j => if j < 8 then false
          else if j = m then true else decide (j ∈ List.range m)
        frames := s0.frames ++ [decodeFrame (bufWrites s0.buf p (List.range m ++ [m]))] } := by
    rw [List.range_succ]
    exact udpRun_completes_last (m + 1) p hn' hp' s0 hs (List.range m) m
      (fun i hi => by have := List.mem_range.mp hi; omega)
      (by omega)
      ⟨m, by omega, by simp [List.mem_range]⟩
      (fun j hj => by
        rcases Nat.lt_or_ge j m with h | h
        · exact List.mem_append.mpr (Or.inl (List.mem_range.mpr h))
        · exact List.mem_append.mpr (Or.inr (by simp [show j = m by omega])))
  have hrevlist : (List.range (m + 1)).reverse =
      ((List.range m).map Nat.succ).reverse ++ [0] := by
    rw [List.range_succ_eq_map]
    simp
  have hrev : udpRun s0 (((List.range (m + 1)).reverse).map (chunkPkt (m + 1) p)) =
      { buf := bufWrites s0.buf p (((List.range m).map Nat.succ).reverse ++ [0])
        receivedChunks := fun j => if j < 8 then false
          else if j = 0 then true else decide (j ∈ ((List.range m).map Nat.succ).reverse)
        frames := s0.frames ++
          [decodeFrame (bufWrites s0.buf p (((List.range m).map Nat.succ).reverse ++ [0]))] } := by
    rw [hrevlist]
    refine udpRun_completes_last (m + 1) p hn' hp' s0 hs
      (((List.range m).map Nat.succ).reverse) 0 ?_ (by omega) ?_ ?_
    · intro i hi
      simp only [List.mem_reverse, List.mem_map, List.mem_range] at hi
      obtain ⟨k, hk, rfl⟩ := hi
      omega
    · refine ⟨0, by omega, ?_⟩
      simp only [List.mem_reverse, List.mem_map, List.mem_range]
      rintro ⟨k, -, hk⟩
      exact Nat.succ_ne_zero k hk
    · intro j hj
      rcases Nat.eq_zero_or_pos j with rfl | hjpos
      · exact List.mem_append.mpr (Or.inr (by simp))
      · refine List.mem_append.mpr (Or.inl ?_)
        simp only [List.mem_reverse, List.mem_map, List.mem_range]
        exact ⟨j - 1, by omega, by omega⟩
  have hbufeq : bufWrites s0.buf p (((List.range m).map Nat.succ).reverse ++ [0]) =
      bufWrites s0.buf p (List.range m ++ [m]) := by
    have h1 : (((List.range m).map Nat.succ).reverse ++ [0]) =
        (List.range (m + 1)).reverse := hrevlist.symm
    have h2 : (List.range m ++ [m]) = List.range (m + 1) := (List.range_succ m).symm
    rw [h1, h2]
    refine bufWrites_reverse s0.buf p (List.range (m + 1)) ?_
    intro i hi
    exact (hp i (List.mem_range.mp hi)).2
  rw [hfwd, hrev]
  refine ⟨?_, by rw [List.range_succ]⟩
  simp only [hbufeq]

theorem udp_chunk_order_independence_witness :
    0 < 2 ∧ 2 ≤ 8 ∧
    (∀ i, i < 2 → 0 < ([i + 3] : List Nat).length ∧ ([i + 3] : List Nat).length ≤ CHUNK_SIZE) ∧
    ((udpRun initState (((List.range 2).reverse).map (chunkPkt 2 fun i => [i + 3]))).frames =
        (udpRun initState ((List.range 2).map (chunkPkt 2 fun i => [i + 3]))).frames ∧
      (udpRun initState ((List.range 2).map (chunkPkt 2 fun i => [i + 3]))).frames =
        initState.frames ++
          [decodeFrame (bufWrites initState.buf (fun i => [i + 3]) (List.range 2))]) :=
  ⟨by decide, by decide, by decide,
    udp_chunk_order_independence 2 (fun i => [i + 3]) initState (by decide) (by decide)
      (by decide) fun i => rfl⟩

end PixelStream
